import Mathlib

/-!
Shallow embedding of `art::HiddenApiFinder` (tools/veridex/hidden_api_finder.cc):
the instruction-level scanner (`CollectAccesses`), the aggregation state
(`method_locations_`, `field_locations_`, `classes_`, `strings_`,
`reflection_locations_`), the run loop (`Run`) and the report generator
(`Dump`, `DumpReferences`).  The external collaborators (dex file reader,
resolver, hidden-API classifier) are modelled as record-of-function
parameters, matching the interface boundary of the spec.
-/

namespace Veridex

/-- C++ `art::MethodReference`: a (dex file, method index) pair identifying a
call site.  Two distinct references may resolve to the same textual form. -/
structure MethodReference where
  dexFileIndex : Nat
  methodIndex : Nat
deriving DecidableEq, Repr

/-- The `SignatureSource` enumeration of veridex: where the classifier
attributes a signature to. -/
inductive SignatureSource where
  | APP
  | BOOT
  | UNKNOWN
deriving DecidableEq, Repr

/-- The hidden-API classifier (`hidden_api_` member of `HiddenApiFinder`),
abstracted as its query functions: `IsInBoot`, `GetSignatureSource`,
`ShouldReport`, and `GetApiList` split into what `operator<<` prints
(`apiListName`) and `GetIntValue` (`apiListInt`). -/
structure HiddenApi where
  isInBoot : String → Bool
  getSignatureSource : String → SignatureSource
  shouldReport : String → Bool
  apiListName : String → String
  apiListInt : String → Nat

/-- Dex instructions relevant to `HiddenApiFinder::CollectAccesses`, one
constructor per group of opcodes that the switch treats identically, each
carrying the operand the code extracts; `other` is the default case.
`constString` is `CONST_STRING` (operand `VRegB_21c`, a string index);
`invoke` covers `INVOKE_{DIRECT,INTERFACE,STATIC,SUPER,VIRTUAL}` (`VRegB_35c`);
`invokeRange` their `_RANGE` forms (`VRegB_3rc`); `iget`/`iput` the `IGET*` /
`IPUT*` variants (`VRegC_22c`); `sget`/`sput` the `SGET*`/`SPUT*` variants
(`VRegB_21c`). -/
inductive Insn where
  | constString (stringIndex : Nat)
  | invoke (methodIndex : Nat)
  | invokeRange (methodIndex : Nat)
  | iget (fieldIndex : Nat)
  | iput (fieldIndex : Nat)
  | sget (fieldIndex : Nat)
  | sput (fieldIndex : Nat)
  | other
deriving DecidableEq, Repr

/-- A method body as the scanner sees it: its own reference
(`method.GetReference()`), the decoded instruction stream as
(`DexPc`, instruction) pairs, and `InsnsSizeInCodeUnits()`. -/
structure MethodDef where
  ref : MethodReference
  insns : List (Nat × Insn)
  maxPc : Nat

/-- One entry of the class table: descriptor plus method bodies. -/
structure ClassDef where
  descriptor : String
  methods : List MethodDef

/-- A dex file together with its trusted per-unit resolution functions:
the type table (`NumTypeIds` / `GetTypeDescriptorView`), the string table
(`GetStringView`), and `HiddenApi::GetApiMethodName` /
`HiddenApi::GetApiFieldName` over this file's indices. -/
structure DexFile where
  typeIds : List String
  stringTable : Nat → String
  methodName : Nat → String
  fieldName : Nat → String
  classes : List ClassDef

/-- Lexicographic strict order on character lists, the order `std::string`'s
`operator<` induces; written as an executable Boolean so that concrete states
evaluate inside the kernel. -/
def ltChars : List Char → List Char → Bool
  | _, [] => false
  | [], _ :: _ => true
  | a :: as, b :: bs => if a < b then true else if b < a then false else ltChars as bs

/-- Lexicographic strict order on strings (`std::string::operator<`). -/
def strLt (a b : String) : Bool := ltChars a.data b.data

/-- Modelled from the spec: the aggregation containers are declared in
`hidden_api_finder.h`, which is outside the provided sources; the spec fixes
them as deduplicated sets and key-ordered maps iterated in lexicographic
ascending key order (`std::set<std::string>` / `std::map<std::string, ...>`).
We realise them as strictly-sorted lists and strictly-sorted association
lists.  `setInsert` is `std::set<std::string>::insert`. -/
def setInsert (x : String) : List String → List String
  | [] => [x]
  | y :: ys =>
    if strLt x y then x :: y :: ys
    else if x = y then y :: ys
    else y :: setInsert x ys

/-- Modelled from the spec: `std::map<std::string, std::vector<MethodReference>>`
subscript-plus-`push_back`, i.e. `m[k].push_back(v)`: appends `v` to the entry
of `k`, creating it at its ordered position when missing. -/
def mapAppend (k : String) (v : MethodReference) :
    List (String × List MethodReference) → List (String × List MethodReference)
  | [] => [(k, [v])]
  | (k', vs) :: rest =>
    if strLt k k' then (k, [v]) :: (k', vs) :: rest
    else if k = k' then (k', vs ++ [v]) :: rest
    else (k', vs) :: mapAppend k v rest

/-- Read-only lookup in an association list, defaulting to the empty vector. -/
def mapFindD (m : List (String × List MethodReference)) (k : String) :
    List MethodReference :=
  match m with
  | [] => []
  | (k', vs) :: rest => if k = k' then vs else mapFindD rest k

/-- Modelled from the spec: `std::map::operator[]` as used by the reflection
pass of `Dump` — returns the entry for `k` and the map after the access,
inserting an empty entry at the ordered position when `k` is missing. -/
def mapGetOrInsert (k : String) :
    List (String × List MethodReference) →
    List MethodReference × List (String × List MethodReference)
  | [] => ([], [(k, [])])
  | (k', vs) :: rest =>
    if strLt k k' then ([], (k, []) :: (k', vs) :: rest)
    else if k = k' then (vs, (k', vs) :: rest)
    else
      let r := mapGetOrInsert k rest
      (r.1, (k', vs) :: r.2)

/-- Modelled from the spec: `std::map<std::string, size_t>` increment as in
`DumpReferences` (`counts[ref_string]++` after zero-initialising a missing
entry — net effect: increment, creating the entry with value 1). -/
def mapIncr (k : String) : List (String × Nat) → List (String × Nat)
  | [] => [(k, 1)]
  | (k', n) :: rest =>
    if strLt k k' then (k, 1) :: (k', n) :: rest
    else if k = k' then (k', n + 1) :: rest
    else (k', n) :: mapIncr k rest

/-- Key list of an association list. -/
def keys {α : Type} (m : List (String × α)) : List String := m.map Prod.fst

/-- The aggregation state owned by a `HiddenApiFinder` instance (fields named
as in the C++ class). -/
structure FinderState where
  method_locations_ : List (String × List MethodReference)
  field_locations_ : List (String × List MethodReference)
  classes_ : List String
  strings_ : List String
  reflection_locations_ : List (String × List MethodReference)
deriving DecidableEq, Repr

/-- The state of a freshly constructed finder. -/
def emptyState : FinderState :=
  { method_locations_ := []
    field_locations_ := []
    classes_ := []
    strings_ := []
    reflection_locations_ := [] }

/-- Modelled from the spec: `HiddenApi::ToInternalName` (declared outside the
provided sources) turns a dotted Java-level class name into descriptor form,
`a.b.C` into `La/b/C;`, replacing each `.` by `/` and leaving `$` alone. -/
def toInternalName (s : String) : String :=
  "L" ++ String.map (fun c => if c = '.' then '/' else c) s ++ ";"

/-- Embeds `HiddenApiFinder::CheckMethod`: resolve the method id to its canonical API
name and append the call site to `method_locations_`. -/
def checkMethod (df : DexFile) (method_id : Nat) (ref : MethodReference)
    (st : FinderState) : FinderState :=
  { st with method_locations_ := mapAppend (df.methodName method_id) ref st.method_locations_ }

/-- Embeds `HiddenApiFinder::CheckField`: resolve the field id to its canonical API
name and append the call site to `field_locations_`. -/
def checkField (df : DexFile) (field_id : Nat) (ref : MethodReference)
    (st : FinderState) : FinderState :=
  { st with field_locations_ := mapAppend (df.fieldName field_id) ref st.field_locations_ }

/-- One iteration of the instruction switch in
`HiddenApiFinder::CollectAccesses`.  The `CONST_STRING` case skips literals
containing a space (`name.find(' ') == npos` check), then tries the internal
form against the boot list, then the raw literal, and otherwise records the
literal and its location as a reflection candidate. -/
def processInstruction (hapi : HiddenApi) (df : DexFile) (methodRef : MethodReference)
    (st : FinderState) (i : Insn) : FinderState :=
  match i with
  | .constString stringIndex =>
    let name := df.stringTable stringIndex
    if name.data.contains ' ' then st
    else
      let str := toInternalName name
      if hapi.isInBoot str then
        { st with classes_ := setInsert str st.classes_ }
      else if hapi.isInBoot name then
        { st with classes_ := setInsert name st.classes_ }
      else
        { st with strings_ := setInsert name st.strings_,
                  reflection_locations_ := mapAppend name methodRef st.reflection_locations_ }
  | .invoke idx => checkMethod df idx methodRef st
  | .invokeRange idx => checkMethod df idx methodRef st
  | .iget idx => checkField df idx methodRef st
  | .iput idx => checkField df idx methodRef st
  | .sget idx => checkField df idx methodRef st
  | .sput idx => checkField df idx methodRef st
  | .other => st

/-- The per-method instruction loop of `CollectAccesses`: stops at the first
instruction whose `DexPc` reaches `max_pc` ("prevent abnormal access for
outside of code"), otherwise classifies the instruction and continues. -/
def scanInsns (hapi : HiddenApi) (df : DexFile) (methodRef : MethodReference)
    (max_pc : Nat) (st : FinderState) : List (Nat × Insn) → FinderState
  | [] => st
  | (pc, i) :: rest =>
    if max_pc ≤ pc then st
    else scanInsns hapi df methodRef max_pc (processInstruction hapi df methodRef st i) rest

/-- Scan one method body. -/
def scanMethod (hapi : HiddenApi) (df : DexFile) (m : MethodDef) (st : FinderState) :
    FinderState :=
  scanInsns hapi df m.ref m.maxPc st m.insns

/-- The unconditional first loop of `CollectAccesses`: insert every type
descriptor of the type table into `classes_`. -/
def insertTypes (st : FinderState) (names : List String) : FinderState :=
  names.foldl (fun s n => { s with classes_ := setInsert n s.classes_ }) st

/-- Embeds `HiddenApiFinder::CollectAccesses` over one dex file: the type-table pass,
then the filtered class-table scan. -/
def collectAccesses (hapi : HiddenApi) (df : DexFile) (class_filter : String → Bool)
    (st : FinderState) : FinderState :=
  df.classes.foldl
    (fun s cls =>
      if class_filter cls.descriptor then
        cls.methods.foldl (fun s' m => scanMethod hapi df m s') s
      else s)
    (insertTypes st df.typeIds)

/-- Embeds `HiddenApiFinder::Run`: collect accesses of every dex file in order. -/
def run (hapi : HiddenApi) (dexFiles : List DexFile) (class_filter : String → Bool)
    (st : FinderState) : FinderState :=
  dexFiles.foldl (fun s df => collectAccesses hapi df class_filter s) st

/-- Embeds `HiddenApiStats`: the dump-time accumulator — global report-entry counter,
linking and reflection counters, and the per-category histogram
(`api_counts[GetIntValue()]`), modelled as a function from category index. -/
structure HiddenApiStats where
  count : Nat
  linking_count : Nat
  reflection_count : Nat
  api_counts : Nat → Nat

/-- Pointwise increment of the category histogram. -/
def bumpCount (f : Nat → Nat) (i : Nat) : Nat → Nat :=
  fun j => if j = i then f j + 1 else f j

/-- The `counts` map built by `HiddenApiFinder::DumpReferences`: occurrences of
each resolved reference string.  `resolve` is
`HiddenApi::GetApiMethodName(MethodReference)`. -/
def refCounts (resolve : MethodReference → String)
    (references : List MethodReference) : List (String × Nat) :=
  references.foldl (fun m ref => mapIncr (resolve ref) m) []

/-- One output line of `DumpReferences`: seven spaces of indent, the resolved
form, and the parenthesized occurrence count exactly when it is above one. -/
def referenceLine (p : String × Nat) : String :=
  "       " ++ p.1 ++
    (if 1 < p.2 then " (" ++ toString p.2 ++ " occurrences)" else "") ++ "\n"

/-- Embeds `HiddenApiFinder::DumpReferences`: count the occurrences of each resolved
reference string in a key-ordered map, then print one line per distinct form. -/
def dumpReferences (resolve : MethodReference → String)
    (references : List MethodReference) : String :=
  (refCounts resolve references).foldl (fun acc p => acc ++ referenceLine p) ""

/-- Executable form of `GetSignatureSource(name) != SignatureSource::APP`. -/
def notApp : SignatureSource → Bool
  | SignatureSource.APP => false
  | SignatureSource.BOOT => true
  | SignatureSource.UNKNOWN => true

/-- The shared emission condition of `Dump`:
`GetSignatureSource(name) != SignatureSource::APP && ShouldReport(name)`. -/
def reportableB (hapi : HiddenApi) (name : String) : Bool :=
  notApp (hapi.getSignatureSource name) && hapi.shouldReport name

/-- The stats update performed for one emitted direct ("Linking") finding:
`linking_count++`, `api_counts[GetApiList(name).GetIntValue()]++`,
`++stats->count`. -/
def directStatsUpdate (hapi : HiddenApi) (s : HiddenApiStats) (name : String) :
    HiddenApiStats :=
  { count := s.count + 1
    linking_count := s.linking_count + 1
    reflection_count := s.reflection_count
    api_counts := bumpCount s.api_counts (hapi.apiListInt name) }

/-- The text of one direct finding: header line (with the sequence number the
entry was assigned), the rendered call-site list, and the trailing blank line. -/
def directFindingText (hapi : HiddenApi) (resolve : MethodReference → String)
    (n : Nat) (p : String × List MethodReference) : String :=
  "#" ++ toString n ++ ": Linking " ++ hapi.apiListName p.1 ++ " " ++ p.1 ++
    " use(s):" ++ "\n" ++ dumpReferences resolve p.2 ++ "\n"

/-- The loop body shared by the two direct passes of `Dump`, for an entry that
passed the emission condition. -/
def renderDirectFinding (hapi : HiddenApi) (resolve : MethodReference → String)
    (acc : String × HiddenApiStats) (p : String × List MethodReference) :
    String × HiddenApiStats :=
  (acc.1 ++ directFindingText hapi resolve (directStatsUpdate hapi acc.2 p.1).count p,
   directStatsUpdate hapi acc.2 p.1)

/-- One iteration of a direct pass of `Dump`: emit the entry exactly when the
classifier attributes it away from the application and marks it reportable. -/
def dumpDirectEntry (hapi : HiddenApi) (resolve : MethodReference → String)
    (acc : String × HiddenApiStats) (p : String × List MethodReference) :
    String × HiddenApiStats :=
  if reportableB hapi p.1 then renderDirectFinding hapi resolve acc p else acc

/-- The stats update for one emitted reflection finding:
`api_counts[...]++`, `reflection_count++`, `++stats->count`. -/
def reflectionStatsUpdate (hapi : HiddenApi) (s : HiddenApiStats) (full_name : String) :
    HiddenApiStats :=
  { count := s.count + 1
    linking_count := s.linking_count
    reflection_count := s.reflection_count + 1
    api_counts := bumpCount s.api_counts (hapi.apiListInt full_name) }

/-- The text of one reflection finding, given the locations looked up for the
literal. -/
def reflectionFindingText (hapi : HiddenApi) (resolve : MethodReference → String)
    (n : Nat) (full_name : String) (refs : List MethodReference) : String :=
  "#" ++ toString n ++ ": Reflection " ++ hapi.apiListName full_name ++ " " ++
    full_name ++ " potential use(s):" ++ "\n" ++ dumpReferences resolve refs ++ "\n"

/-- One iteration of the inner (literal) loop of the reflection pass of `Dump`:
form `cls + "->" + name`, and when the emission condition holds, read
`reflection_locations_[name]` through `operator[]` (threading the possibly
extended map) and emit the finding. -/
def dumpReflectionEntry (hapi : HiddenApi) (resolve : MethodReference → String)
    (cls : String)
    (acc : String × HiddenApiStats × List (String × List MethodReference))
    (name : String) :
    String × HiddenApiStats × List (String × List MethodReference) :=
  let full_name := cls ++ "->" ++ name
  if reportableB hapi full_name then
    let lookup := mapGetOrInsert name acc.2.2
    (acc.1 ++ reflectionFindingText hapi resolve
        (reflectionStatsUpdate hapi acc.2.1 full_name).count full_name lookup.1,
     reflectionStatsUpdate hapi acc.2.1 full_name, lookup.2)
  else acc

/-- Embeds `HiddenApiFinder::Dump`: the method pass, the field pass, then (when
`dump_reflection` is set) the class-by-literal reflection pass.  Returns the
emitted text, the updated stats, and the finder state after the call (the
reflection pass's `operator[]` access can extend `reflection_locations_`). -/
def Dump (hapi : HiddenApi) (resolve : MethodReference → String) (st : FinderState)
    (stats : HiddenApiStats) (dump_reflection : Bool) :
    String × HiddenApiStats × FinderState :=
  let a1 := st.method_locations_.foldl (dumpDirectEntry hapi resolve) ("", stats)
  let a2 := st.field_locations_.foldl (dumpDirectEntry hapi resolve) a1
  if dump_reflection then
    let a3 := st.classes_.foldl
      (fun acc cls => st.strings_.foldl (dumpReflectionEntry hapi resolve cls) acc)
      (a2.1, a2.2, st.reflection_locations_)
    (a3.1, a3.2.1, { st with reflection_locations_ := a3.2.2 })
  else (a2.1, a2.2, st)

/-- Follows the spec's words (§4.4): the direct findings of one pass are the
`AccessRecord` entries passing the emission condition, in entry order. -/
def directFindings (hapi : HiddenApi)
    (locs : List (String × List MethodReference)) :
    List (String × List MethodReference) :=
  locs.filter (fun p => reportableB hapi p.1)

/-- Follows the spec's words (§4.3): the reflection findings are the pairs of
the class-by-literal cross product, in visit order, whose candidate name
`class + "->" + literal` passes the emission condition. -/
def reflectionFindings (hapi : HiddenApi) (classes strings : List String) :
    List (String × String) :=
  classes.flatMap
    (fun cls => (strings.filter (fun n => reportableB hapi (cls ++ "->" ++ n))).map
      (fun n => (cls, n)))

/-- Follows the spec's words (§4.3): render one reflection finding whose
locations are taken from `ReflectionLocationIndex[literal]` of the fixed
pre-dump index — not filtered by which class of the pair matched. -/
def renderReflectionFindingSpec (hapi : HiddenApi) (resolve : MethodReference → String)
    (refl : List (String × List MethodReference))
    (acc : String × HiddenApiStats) (p : String × String) : String × HiddenApiStats :=
  (acc.1 ++ reflectionFindingText hapi resolve
      (reflectionStatsUpdate hapi acc.2 (p.1 ++ "->" ++ p.2)).count (p.1 ++ "->" ++ p.2)
      (mapFindD refl p.2),
   reflectionStatsUpdate hapi acc.2 (p.1 ++ "->" ++ p.2))

/-- Read-only lookup in a count map, defaulting to zero. -/
def lookupNat (m : List (String × Nat)) (k : String) : Nat :=
  match m with
  | [] => 0
  | (k', n) :: rest => if k = k' then n else lookupNat rest k

/-- A string list is strictly sorted in the `std::string` order. -/
def SortedStrings (l : List String) : Prop :=
  l.Pairwise (fun a b => strLt a b = true)

instance (l : List String) : Decidable (SortedStrings l) := by
  unfold SortedStrings; infer_instance

/-- All five aggregation containers have strictly sorted keys (the invariant
`std::map` / `std::set` maintain). -/
def SortedState (st : FinderState) : Prop :=
  SortedStrings (keys st.method_locations_) ∧
  SortedStrings (keys st.field_locations_) ∧
  SortedStrings st.classes_ ∧
  SortedStrings st.strings_ ∧
  SortedStrings (keys st.reflection_locations_)

instance (st : FinderState) : Decidable (SortedState st) := by
  unfold SortedState; infer_instance

/-- Every key of `reflection_locations_` is a member of `strings_`. -/
def ReflKeysSubStrings (st : FinderState) : Prop :=
  ∀ k ∈ keys st.reflection_locations_, k ∈ st.strings_

instance (st : FinderState) : Decidable (ReflKeysSubStrings st) := by
  unfold ReflKeysSubStrings; infer_instance

/-- Every member of `strings_` is a key of `reflection_locations_`. -/
def StringsSubReflKeys (st : FinderState) : Prop :=
  ∀ s ∈ st.strings_, s ∈ keys st.reflection_locations_

instance (st : FinderState) : Decidable (StringsSubReflKeys st) := by
  unfold StringsSubReflKeys; infer_instance

/-- No member of `strings_` and no key of `reflection_locations_` contains a
space character. -/
def NoSpaceState (st : FinderState) : Prop :=
  (∀ s ∈ st.strings_, s.data.contains ' ' = false) ∧
  (∀ k ∈ keys st.reflection_locations_, k.data.contains ' ' = false)

instance (st : FinderState) : Decidable (NoSpaceState st) := by
  unfold NoSpaceState; infer_instance

/-- Strict lexicographic order on (class, literal) pairs: by class first, then
by literal. -/
def PairLT (p q : String × String) : Prop :=
  strLt p.1 q.1 = true ∨ (p.1 = q.1 ∧ strLt p.2 q.2 = true)

/-- Concatenation of a list of rendered lines. -/
def concatLines : List String → String
  | [] => ""
  | l :: ls => l ++ concatLines ls

/-- Concrete call site used by witnesses. -/
def mrefA : MethodReference := ⟨0, 1⟩

/-- A second concrete call site. -/
def mrefB : MethodReference := ⟨0, 2⟩

/-- Zeroed stats, as a caller creates them for one dump. -/
def statsZero : HiddenApiStats :=
  { count := 0, linking_count := 0, reflection_count := 0, api_counts := fun _ => 0 }

/-- A classifier marking every name boot-attributed and reportable, and no
name as a boot class (`IsInBoot` false). -/
def hapiAll : HiddenApi :=
  { isInBoot := fun _ => false
    getSignatureSource := fun _ => SignatureSource.BOOT
    shouldReport := fun _ => true
    apiListName := fun _ => "blocked"
    apiListInt := fun _ => 0 }

/-- A resolver mapping every reference to the same textual form. -/
def resolveConst : MethodReference → String := fun _ => "m"

/-- A dex file whose string table holds a dotted class-name literal. -/
def dfLit : DexFile :=
  { typeIds := []
    stringTable := fun _ => "java.lang.Secret"
    methodName := fun _ => "M"
    fieldName := fun _ => "F"
    classes := [] }

/-- A dex file whose only scanned literal contains a tab character (which is
whitespace but not a space). -/
def dfTab : DexFile :=
  { typeIds := []
    stringTable := fun _ => "a\tb"
    methodName := fun _ => "M"
    fieldName := fun _ => "F"
    classes := [{ descriptor := "LC;"
                  methods := [{ ref := mrefA, insns := [(0, Insn.constString 0)], maxPc := 3 }] }] }

/-- A dex file with two type-table entries and no classes. -/
def dfTypes : DexFile :=
  { typeIds := ["La;", "Lb;"]
    stringTable := fun _ => "s"
    methodName := fun _ => "M"
    fieldName := fun _ => "F"
    classes := [] }

/-- An aggregation state with two collected classes and two collected
literals, each literal with one recorded location. -/
def stRefl : FinderState :=
  { method_locations_ := []
    field_locations_ := []
    classes_ := ["La;", "Lb;"]
    strings_ := ["x", "y"]
    reflection_locations_ := [("x", [mrefA]), ("y", [mrefB])] }

/-- A short instruction stream with strictly increasing program counters. -/
def insnsW : List (Nat × Insn) :=
  [(0, Insn.invoke 0), (2, Insn.constString 0), (4, Insn.iget 0), (6, Insn.sput 0)]

theorem ltChars_irrefl : ∀ l : List Char, ltChars l l = false := by
  intro l
  induction l with
  | nil => rfl
  | cons a as ih => simp [ltChars, ih]

theorem ltChars_eq_of_not : ∀ {l₁ l₂ : List Char},
    ltChars l₁ l₂ = false → ltChars l₂ l₁ = false → l₁ = l₂ := by
  intro l₁
  induction l₁ with
  | nil =>
    intro l₂ h₁ _
    cases l₂ with
    | nil => rfl
    | cons b bs => simp [ltChars] at h₁
  | cons a as ih =>
    intro l₂ h₁ h₂
    cases l₂ with
    | nil => simp [ltChars] at h₂
    | cons b bs =>
      by_cases hab : a < b
      · simp [ltChars, hab] at h₁
      · by_cases hba : b < a
        · simp [ltChars, hba, hab] at h₂
        · have hEq : a = b := le_antisymm (not_lt.mp hba) (not_lt.mp hab)
          subst hEq
          simp only [ltChars, if_neg hab, if_neg hba] at h₁ h₂
          rw [ih h₁ h₂]

theorem ltChars_trans : ∀ {l₁ l₂ l₃ : List Char},
    ltChars l₁ l₂ = true → ltChars l₂ l₃ = true → ltChars l₁ l₃ = true := by
  intro l₁
  induction l₁ with
  | nil =>
    intro l₂ l₃ h₁ h₂
    cases l₂ with
    | nil => simp [ltChars] at h₁
    | cons b bs =>
      cases l₃ with
      | nil => simp [ltChars] at h₂
      | cons c cs => simp [ltChars]
  | cons a as ih =>
    intro l₂ l₃ h₁ h₂
    cases l₂ with
    | nil => simp [ltChars] at h₁
    | cons b bs =>
      cases l₃ with
      | nil => simp [ltChars] at h₂
      | cons c cs =>
        simp only [ltChars] at h₁ h₂ ⊢
        by_cases hab : a < b
        · by_cases hbc : b < c
          · simp [lt_trans hab hbc]
          · by_cases hcb : c < b
            · simp [ltChars, hbc, hcb] at h₂
            · have : b = c := le_antisymm (not_lt.mp hcb) (not_lt.mp hbc)
              subst this
              simp [hab]
        · by_cases hba : b < a
          · simp [hab, hba] at h₁
          · have : a = b := le_antisymm (not_lt.mp hba) (not_lt.mp hab)
            subst this
            simp only [if_neg hab, if_neg hba] at h₁
            by_cases hbc : a < c
            · simp [hbc]
            · by_cases hcb : c < a
              · simp [hbc, hcb] at h₂
              · simp only [if_neg hbc, if_neg hcb] at h₂ ⊢
                exact ih h₁ h₂

theorem ltChars_asymm {l₁ l₂ : List Char} (h : ltChars l₁ l₂ = true) :
    ltChars l₂ l₁ = false := by
  by_contra hc
  have h₂ : ltChars l₂ l₁ = true := by
    cases hb : ltChars l₂ l₁
    · exact absurd hb hc
    · rfl
  have := ltChars_trans h h₂
  rw [ltChars_irrefl] at this
  exact Bool.false_ne_true this

theorem strLt_irrefl (s : String) : strLt s s = false := ltChars_irrefl s.data

theorem strLt_trans {a b c : String} (h₁ : strLt a b = true) (h₂ : strLt b c = true) :
    strLt a c = true := ltChars_trans h₁ h₂

theorem strLt_asymm {a b : String} (h : strLt a b = true) : strLt b a = false :=
  ltChars_asymm h

theorem strLt_eq_of_not {a b : String} (h₁ : strLt a b = false) (h₂ : strLt b a = false) :
    a = b := by
  have h := ltChars_eq_of_not h₁ h₂
  cases a; cases b
  exact congrArg String.mk h

theorem strLt_ne {a b : String} (h : strLt a b = true) : a ≠ b := by
  intro he
  subst he
  rw [strLt_irrefl] at h
  exact Bool.noConfusion h

theorem strLt_of_not {a b : String} (h₁ : strLt a b = false) (h₂ : a ≠ b) :
    strLt b a = true := by
  cases hb : strLt b a
  · exact absurd (strLt_eq_of_not h₁ hb) h₂
  · rfl

theorem mem_setInsert {y x : String} :
    ∀ {l : List String}, y ∈ setInsert x l ↔ y = x ∨ y ∈ l := by
  intro l
  induction l with
  | nil => simp [setInsert]
  | cons z zs ih =>
    cases h₁ : strLt x z with
    | true =>
      simp [setInsert, h₁, List.mem_cons] <;> tauto
    | false =>
      by_cases h₂ : x = z
      · subst h₂
        simp [setInsert, h₁, List.mem_cons] <;> tauto
      · simp [setInsert, h₁, h₂, List.mem_cons, ih] <;> tauto

theorem sorted_setInsert {x : String} :
    ∀ {l : List String}, SortedStrings l → SortedStrings (setInsert x l) := by
  intro l
  induction l with
  | nil =>
    intro _
    simp [setInsert, SortedStrings]
  | cons z zs ih =>
    intro h
    obtain ⟨hz, hzs⟩ := List.pairwise_cons.mp h
    by_cases h₁ : strLt x z = true
    · simp only [setInsert, h₁, if_true]
      refine List.pairwise_cons.mpr ⟨?_, h⟩
      intro b hb
      rcases List.mem_cons.mp hb with rfl | hb
      · exact h₁
      · exact strLt_trans h₁ (hz b hb)
    · by_cases h₂ : x = z
      · subst h₂
        simpa [setInsert, strLt_irrefl] using h
      · have hzx : strLt z x = true := by
          cases hx : strLt x z
          · exact strLt_of_not hx h₂
          · exact absurd hx h₁
        simp only [setInsert, h₁, if_false, if_neg h₂]
        refine List.pairwise_cons.mpr ⟨?_, ih hzs⟩
        intro b hb
        rcases mem_setInsert.mp hb with rfl | hb
        · exact hzx
        · exact hz b hb

theorem keys_mapAppend {k : String} {v : MethodReference} :
    ∀ {m : List (String × List MethodReference)},
      keys (mapAppend k v m) = setInsert k (keys m) := by
  intro m
  induction m with
  | nil => rfl
  | cons p rest ih =>
    obtain ⟨k', vs⟩ := p
    by_cases h₁ : strLt k k' = true
    · simp [mapAppend, setInsert, keys, h₁]
    · by_cases h₂ : k = k'
      · subst h₂
        simp [mapAppend, setInsert, keys, strLt_irrefl]
      · simp only [mapAppend, setInsert, h₁, if_false, if_neg h₂, keys, List.map_cons]
        simpa [keys] using ih

theorem keys_mapIncr {k : String} :
    ∀ {m : List (String × Nat)}, keys (mapIncr k m) = setInsert k (keys m) := by
  intro m
  induction m with
  | nil => rfl
  | cons p rest ih =>
    obtain ⟨k', n⟩ := p
    by_cases h₁ : strLt k k' = true
    · simp [mapIncr, setInsert, keys, h₁]
    · by_cases h₂ : k = k'
      · subst h₂
        simp [mapIncr, setInsert, keys, strLt_irrefl]
      · simp only [mapIncr, setInsert, h₁, if_false, if_neg h₂, keys, List.map_cons]
        simpa [keys] using ih

theorem keys_mapGetOrInsert {k : String} :
    ∀ {m : List (String × List MethodReference)},
      keys (mapGetOrInsert k m).2 = setInsert k (keys m) := by
  intro m
  induction m with
  | nil => rfl
  | cons p rest ih =>
    obtain ⟨k', vs⟩ := p
    by_cases h₁ : strLt k k' = true
    · simp [mapGetOrInsert, setInsert, keys, h₁]
    · by_cases h₂ : k = k'
      · subst h₂
        simp [mapGetOrInsert, setInsert, keys, strLt_irrefl]
      · simp only [mapGetOrInsert, setInsert, h₁, if_false, if_neg h₂, keys, List.map_cons]
        simpa [keys] using ih

theorem mapFindD_eq_nil_of_not_mem {k : String} :
    ∀ {m : List (String × List MethodReference)}, k ∉ keys m → mapFindD m k = [] := by
  intro m
  induction m with
  | nil => intro _; rfl
  | cons p rest ih =>
    obtain ⟨k', vs⟩ := p
    intro h
    have hne : k ≠ k' := fun he => h (by simp [keys, he])
    have hrest : k ∉ keys rest := fun hr => h (by simp [keys] at hr ⊢; exact Or.inr hr)
    simp [mapFindD, hne, ih hrest]

theorem not_mem_keys_of_head_gt {k k' : String} {ks : List String}
    (hlt : strLt k k' = true)
    (hs : SortedStrings (k' :: ks)) : k ∉ k' :: ks := by
  obtain ⟨hz, _⟩ := List.pairwise_cons.mp hs
  intro hmem
  rcases List.mem_cons.mp hmem with rfl | hmem
  · exact absurd hlt (by rw [strLt_irrefl]; exact Bool.noConfusion)
  · have := hz k hmem
    rw [strLt_asymm this] at hlt
    exact Bool.noConfusion hlt

theorem mapGetOrInsert_fst {k : String} :
    ∀ {m : List (String × List MethodReference)}, SortedStrings (keys m) →
      (mapGetOrInsert k m).1 = mapFindD m k := by
  intro m
  induction m with
  | nil => intro _; rfl
  | cons p rest ih =>
    obtain ⟨k', vs⟩ := p
    intro hs
    have hs' : SortedStrings (k' :: keys rest) := hs
    by_cases h₁ : strLt k k' = true
    · have hnm : k ∉ k' :: keys rest := not_mem_keys_of_head_gt h₁ hs'
      have hne : k ≠ k' := fun he => hnm (by simp [he])
      have hnr : k ∉ keys rest := fun hr => hnm (List.mem_cons.mpr (Or.inr hr))
      simp [mapGetOrInsert, mapFindD, h₁, hne, mapFindD_eq_nil_of_not_mem hnr]
    · by_cases h₂ : k = k'
      · subst h₂
        simp [mapGetOrInsert, mapFindD, strLt_irrefl]
      · simp only [mapGetOrInsert, h₁, if_false, if_neg h₂, mapFindD]
        exact ih (List.pairwise_cons.mp hs').2

theorem mapFindD_mapGetOrInsert {k : String} :
    ∀ {m : List (String × List MethodReference)}, SortedStrings (keys m) →
      ∀ k', mapFindD (mapGetOrInsert k m).2 k' = mapFindD m k' := by
  intro m
  induction m with
  | nil =>
    intro _ k'
    by_cases h : k' = k <;> simp [mapGetOrInsert, mapFindD, h]
  | cons p rest ih =>
    obtain ⟨k₀, vs⟩ := p
    intro hs k'
    have hs' : SortedStrings (k₀ :: keys rest) := hs
    by_cases h₁ : strLt k k₀ = true
    · have hnm : k ∉ k₀ :: keys rest := not_mem_keys_of_head_gt h₁ hs'
      by_cases h₂ : k' = k
      · subst h₂
        have hne : k' ≠ k₀ := fun he => hnm (by simp [he])
        have hnr : k' ∉ keys rest := fun hr => hnm (List.mem_cons.mpr (Or.inr hr))
        simp [mapGetOrInsert, mapFindD, h₁, hne, mapFindD_eq_nil_of_not_mem hnr]
      · simp [mapGetOrInsert, mapFindD, h₁, h₂]
    · by_cases h₂ : k = k₀
      · subst h₂
        simp [mapGetOrInsert, strLt_irrefl]
      · simp only [mapGetOrInsert, h₁, if_false, if_neg h₂, mapFindD]
        by_cases h₃ : k' = k₀
        · simp [h₃]
        · simp only [if_neg h₃]
          exact ih (List.pairwise_cons.mp hs').2 k'

theorem mapGetOrInsert_of_mem {k : String} :
    ∀ {m : List (String × List MethodReference)}, SortedStrings (keys m) →
      k ∈ keys m → (mapGetOrInsert k m).2 = m := by
  intro m
  induction m with
  | nil => intro _ h; simp [keys] at h
  | cons p rest ih =>
    obtain ⟨k₀, vs⟩ := p
    intro hs hmem
    have hs' : SortedStrings (k₀ :: keys rest) := hs
    by_cases h₁ : strLt k k₀ = true
    · exact absurd hmem (not_mem_keys_of_head_gt h₁ hs')
    · by_cases h₂ : k = k₀
      · subst h₂
        simp [mapGetOrInsert, strLt_irrefl]
      · have hr : k ∈ keys rest := by
          have hmem' : k ∈ k₀ :: keys rest := hmem
          rcases List.mem_cons.mp hmem' with he | hr
          · exact absurd he h₂
          · exact hr
        have h₃ := ih (List.pairwise_cons.mp hs').2 hr
        simp [mapGetOrInsert, h₁, h₂, h₃]

theorem lookupNat_not_mem {k : String} :
    ∀ {m : List (String × Nat)}, k ∉ keys m → lookupNat m k = 0 := by
  intro m
  induction m with
  | nil => intro _; rfl
  | cons p rest ih =>
    obtain ⟨k', n⟩ := p
    intro h
    have hne : k ≠ k' := fun he => h (by simp [keys, he])
    have hrest : k ∉ keys rest := fun hr => h (by simp [keys] at hr ⊢; exact Or.inr hr)
    simp [lookupNat, hne, ih hrest]

theorem lookupNat_mapIncr_self {k : String} :
    ∀ {m : List (String × Nat)}, SortedStrings (keys m) →
      lookupNat (mapIncr k m) k = lookupNat m k + 1 := by
  intro m
  induction m with
  | nil => intro _; simp [mapIncr, lookupNat]
  | cons p rest ih =>
    obtain ⟨k₀, n⟩ := p
    intro hs
    have hs' : SortedStrings (k₀ :: keys rest) := hs
    by_cases h₁ : strLt k k₀ = true
    · have hnm : k ∉ k₀ :: keys rest := not_mem_keys_of_head_gt h₁ hs'
      have hne : k ≠ k₀ := fun he => hnm (by simp [he])
      have hnr : k ∉ keys rest := fun hr => hnm (List.mem_cons.mpr (Or.inr hr))
      simp [mapIncr, lookupNat, h₁, hne, lookupNat_not_mem hnr]
    · by_cases h₂ : k = k₀
      · subst h₂
        simp [mapIncr, lookupNat, strLt_irrefl]
      · simp only [mapIncr, h₁, if_false, if_neg h₂, lookupNat]
        exact ih (List.pairwise_cons.mp hs').2

theorem lookupNat_mapIncr_ne {k k' : String} (hne : k' ≠ k) :
    ∀ {m : List (String × Nat)}, lookupNat (mapIncr k m) k' = lookupNat m k' := by
  intro m
  induction m with
  | nil => simp [mapIncr, lookupNat, hne]
  | cons p rest ih =>
    obtain ⟨k₀, n⟩ := p
    by_cases h₁ : strLt k k₀ = true
    · simp [mapIncr, lookupNat, h₁, hne]
    · by_cases h₂ : k = k₀
      · subst h₂
        simp [mapIncr, lookupNat, strLt_irrefl, hne]
      · simp only [mapIncr, h₁, if_false, if_neg h₂, lookupNat]
        by_cases h₃ : k' = k₀
        · simp [h₃]
        · simp only [if_neg h₃]
          exact ih

theorem lookupNat_of_mem {k : String} {v : Nat} :
    ∀ {m : List (String × Nat)}, SortedStrings (keys m) → (k, v) ∈ m →
      lookupNat m k = v := by
  intro m
  induction m with
  | nil => intro _ h; simp at h
  | cons p rest ih =>
    obtain ⟨k₀, n⟩ := p
    intro hs hmem
    have hs' : SortedStrings (k₀ :: keys rest) := hs
    obtain ⟨hz, htl⟩ := List.pairwise_cons.mp hs'
    rcases List.mem_cons.mp hmem with he | hmem
    · obtain ⟨he₁, he₂⟩ := Prod.mk.injEq .. ▸ he
      · simp only [lookupNat]
        injection he with he₁ he₂
        simp [he₁, he₂]
    · have hk : k ∈ keys rest := by
        simp only [keys, List.mem_map]
        exact ⟨(k, v), hmem, rfl⟩
      have hne : k ≠ k₀ := by
        intro he
        subst he
        have := hz k hk
        rw [strLt_irrefl] at this
        exact Bool.noConfusion this
      simp only [lookupNat, if_neg hne]
      exact ih htl hmem

theorem foldl_append_concatLines {α : Type} (f : α → String) :
    ∀ (l : List α) (t : String),
      l.foldl (fun acc x => acc ++ f x) t = t ++ concatLines (l.map f) := by
  intro l
  induction l with
  | nil => intro t; simp [concatLines, String.append_empty]
  | cons x xs ih =>
    intro t
    simp only [List.foldl, List.map_cons, concatLines]
    rw [ih, String.append_assoc]

theorem sorted_keys_foldl_mapIncr (resolve : MethodReference → String) :
    ∀ (refs : List MethodReference) (m : List (String × Nat)),
      SortedStrings (keys m) →
      SortedStrings (keys (refs.foldl (fun m' ref => mapIncr (resolve ref) m') m)) := by
  intro refs
  induction refs with
  | nil => intro m h; exact h
  | cons r rest ih =>
    intro m h
    simp only [List.foldl]
    exact ih _ (by rw [keys_mapIncr]; exact sorted_setInsert h)

theorem mem_keys_foldl_mapIncr (resolve : MethodReference → String) :
    ∀ (refs : List MethodReference) (m : List (String × Nat)) (s : String),
      s ∈ keys (refs.foldl (fun m' ref => mapIncr (resolve ref) m') m) ↔
        s ∈ keys m ∨ s ∈ refs.map resolve := by
  intro refs
  induction refs with
  | nil => intro m s; simp
  | cons r rest ih =>
    intro m s
    simp only [List.foldl, List.map_cons, List.mem_cons]
    rw [ih]
    rw [keys_mapIncr, mem_setInsert]
    tauto

theorem lookupNat_foldl_mapIncr (resolve : MethodReference → String) :
    ∀ (refs : List MethodReference) (m : List (String × Nat)) (s : String),
      SortedStrings (keys m) →
      lookupNat (refs.foldl (fun m' ref => mapIncr (resolve ref) m') m) s =
        lookupNat m s + (refs.map resolve).count s := by
  intro refs
  induction refs with
  | nil => intro m s _; simp
  | cons r rest ih =>
    intro m s hm
    have hm' : SortedStrings (keys (mapIncr (resolve r) m)) := by
      rw [keys_mapIncr]; exact sorted_setInsert hm
    simp only [List.foldl, List.map_cons]
    rw [ih _ s hm']
    by_cases h : s = resolve r
    · subst h
      rw [lookupNat_mapIncr_self hm, List.count_cons_self]
      omega
    · rw [lookupNat_mapIncr_ne h, List.count_cons_of_ne h]

theorem scanInsns_eq_takeWhile (hapi : HiddenApi) (df : DexFile)
    (methodRef : MethodReference) (max_pc : Nat) :
    ∀ (l : List (Nat × Insn)) (st : FinderState),
      scanInsns hapi df methodRef max_pc st l =
        (l.takeWhile (fun p => decide (p.1 < max_pc))).foldl
          (fun s p => processInstruction hapi df methodRef s p.2) st := by
  intro l
  induction l with
  | nil => intro st; rfl
  | cons p rest ih =>
    intro st
    obtain ⟨pc, i⟩ := p
    by_cases h : max_pc ≤ pc
    · have hd : decide (pc < max_pc) = false := by simp; omega
      simp [scanInsns, List.takeWhile_cons, h, hd]
    · have hd : decide (pc < max_pc) = true := by simp; omega
      simp only [scanInsns, if_neg h, List.takeWhile_cons, hd, if_true, List.foldl]
      exact ih _

theorem foldl_preserve {σ β : Type} (P : σ → Prop) (f : σ → β → σ)
    (h : ∀ s b, P s → P (f s b)) :
    ∀ (l : List β) (s : σ), P s → P (l.foldl f s) := by
  intro l
  induction l with
  | nil => intro s hs; exact hs
  | cons b bs ih => intro s hs; exact ih _ (h s b hs)

theorem processInstruction_preserve (P : FinderState → Prop)
    (hm : ∀ st k v, P st →
      P { st with method_locations_ := mapAppend k v st.method_locations_ })
    (hf : ∀ st k v, P st →
      P { st with field_locations_ := mapAppend k v st.field_locations_ })
    (hc : ∀ st n, P st → P { st with classes_ := setInsert n st.classes_ })
    (hsr : ∀ st n v, n.data.contains ' ' = false → P st →
      P { st with strings_ := setInsert n st.strings_,
                  reflection_locations_ := mapAppend n v st.reflection_locations_ }) :
    ∀ (hapi : HiddenApi) (df : DexFile) (r : MethodReference) (st : FinderState)
      (i : Insn), P st → P (processInstruction hapi df r st i) := by
  intro hapi df r st i hP
  cases i with
  | constString idx =>
    simp only [processInstruction]
    cases hsp : (df.stringTable idx).data.contains ' ' with
    | true => simpa [hsp] using hP
    | false =>
      simp only [hsp, Bool.false_eq_true, if_false]
      cases hb1 : hapi.isInBoot (toInternalName (df.stringTable idx)) with
      | true => simpa [hb1] using hc st _ hP
      | false =>
        cases hb2 : hapi.isInBoot (df.stringTable idx) with
        | true => simpa [hb1, hb2] using hc st _ hP
        | false => simpa [hb1, hb2] using hsr st _ r hsp hP
  | invoke idx => exact hm st _ r hP
  | invokeRange idx => exact hm st _ r hP
  | iget idx => exact hf st _ r hP
  | iput idx => exact hf st _ r hP
  | sget idx => exact hf st _ r hP
  | sput idx => exact hf st _ r hP
  | other => exact hP

theorem run_preserve (P : FinderState → Prop)
    (hm : ∀ st k v, P st →
      P { st with method_locations_ := mapAppend k v st.method_locations_ })
    (hf : ∀ st k v, P st →
      P { st with field_locations_ := mapAppend k v st.field_locations_ })
    (hc : ∀ st n, P st → P { st with classes_ := setInsert n st.classes_ })
    (hsr : ∀ st n v, n.data.contains ' ' = false → P st →
      P { st with strings_ := setInsert n st.strings_,
                  reflection_locations_ := mapAppend n v st.reflection_locations_ }) :
    (∀ hapi df r maxpc st l, P st → P (scanInsns hapi df r maxpc st l)) ∧
    (∀ hapi df f st, P st → P (collectAccesses hapi df f st)) ∧
    (∀ hapi dfs f st, P st → P (run hapi dfs f st)) := by
  have hscan : ∀ hapi df r maxpc st l, P st → P (scanInsns hapi df r maxpc st l) := by
    intro hapi df r maxpc st l hP
    rw [scanInsns_eq_takeWhile]
    exact foldl_preserve P _
      (fun s p hp => processInstruction_preserve P hm hf hc hsr hapi df r s p.2 hp)
      _ _ hP
  have hcollect : ∀ hapi df f st, P st → P (collectAccesses hapi df f st) := by
    intro hapi df f st hP
    unfold collectAccesses
    have htypes : P (insertTypes st df.typeIds) := by
      unfold insertTypes
      exact foldl_preserve P _ (fun s n hp => hc s n hp) _ _ hP
    refine foldl_preserve P _ ?_ _ _ htypes
    intro s cls hp
    by_cases hflt : f cls.descriptor
    · simp only [hflt, if_true]
      exact foldl_preserve P _
        (fun s' m hp' => hscan hapi df m.ref m.maxPc s' m.insns hp') _ _ hp
    · simpa [hflt] using hp
  refine ⟨hscan, hcollect, ?_⟩
  intro hapi dfs f st hP
  exact foldl_preserve P _ (fun s df hp => hcollect hapi df f s hp) _ _ hP

theorem sortedState_mapAppend_method :
    ∀ (st : FinderState) (k : String) (v : MethodReference), SortedState st →
      SortedState { st with method_locations_ := mapAppend k v st.method_locations_ } :=
  fun _ _ _ h =>
    ⟨by rw [keys_mapAppend]; exact sorted_setInsert h.1,
     h.2.1, h.2.2.1, h.2.2.2.1, h.2.2.2.2⟩

theorem sortedState_mapAppend_field :
    ∀ (st : FinderState) (k : String) (v : MethodReference), SortedState st →
      SortedState { st with field_locations_ := mapAppend k v st.field_locations_ } :=
  fun _ _ _ h =>
    ⟨h.1, by rw [keys_mapAppend]; exact sorted_setInsert h.2.1,
     h.2.2.1, h.2.2.2.1, h.2.2.2.2⟩

theorem sortedState_setInsert_classes :
    ∀ (st : FinderState) (n : String), SortedState st →
      SortedState { st with classes_ := setInsert n st.classes_ } :=
  fun _ _ h => ⟨h.1, h.2.1, sorted_setInsert h.2.2.1, h.2.2.2.1, h.2.2.2.2⟩

theorem sortedState_strings_refl :
    ∀ (st : FinderState) (n : String) (v : MethodReference),
      n.data.contains ' ' = false → SortedState st →
      SortedState { st with strings_ := setInsert n st.strings_,
                            reflection_locations_ := mapAppend n v st.reflection_locations_ } :=
  fun _ _ _ _ h =>
    ⟨h.1, h.2.1, h.2.2.1, sorted_setInsert h.2.2.2.1,
     by rw [keys_mapAppend]; exact sorted_setInsert h.2.2.2.2⟩

theorem preserve_SortedState :
    (∀ hapi df r maxpc st l, SortedState st → SortedState (scanInsns hapi df r maxpc st l)) ∧
    (∀ hapi df f st, SortedState st → SortedState (collectAccesses hapi df f st)) ∧
    (∀ hapi dfs f st, SortedState st → SortedState (run hapi dfs f st)) :=
  run_preserve SortedState sortedState_mapAppend_method sortedState_mapAppend_field
    sortedState_setInsert_classes sortedState_strings_refl

theorem reflSub_strings_refl :
    ∀ (st : FinderState) (n : String) (v : MethodReference),
      n.data.contains ' ' = false → ReflKeysSubStrings st →
      ReflKeysSubStrings
        { st with strings_ := setInsert n st.strings_,
                  reflection_locations_ := mapAppend n v st.reflection_locations_ } := by
  intro st n v _ h k hk
  rw [keys_mapAppend] at hk
  rcases mem_setInsert.mp hk with rfl | hk
  · exact mem_setInsert.mpr (Or.inl rfl)
  · exact mem_setInsert.mpr (Or.inr (h k hk))

theorem preserve_ReflKeysSub :
    (∀ hapi df r maxpc st l, ReflKeysSubStrings st →
      ReflKeysSubStrings (scanInsns hapi df r maxpc st l)) ∧
    (∀ hapi df f st, ReflKeysSubStrings st → ReflKeysSubStrings (collectAccesses hapi df f st)) ∧
    (∀ hapi dfs f st, ReflKeysSubStrings st → ReflKeysSubStrings (run hapi dfs f st)) :=
  run_preserve ReflKeysSubStrings (fun _ _ _ h => h) (fun _ _ _ h => h) (fun _ _ h => h)
    reflSub_strings_refl

theorem stringsSub_strings_refl :
    ∀ (st : FinderState) (n : String) (v : MethodReference),
      n.data.contains ' ' = false → StringsSubReflKeys st →
      StringsSubReflKeys
        { st with strings_ := setInsert n st.strings_,
                  reflection_locations_ := mapAppend n v st.reflection_locations_ } := by
  intro st n v _ h s hs
  rw [keys_mapAppend]
  rcases mem_setInsert.mp hs with rfl | hs
  · exact mem_setInsert.mpr (Or.inl rfl)
  · exact mem_setInsert.mpr (Or.inr (h s hs))

theorem preserve_StringsSub :
    (∀ hapi df r maxpc st l, StringsSubReflKeys st →
      StringsSubReflKeys (scanInsns hapi df r maxpc st l)) ∧
    (∀ hapi df f st, StringsSubReflKeys st → StringsSubReflKeys (collectAccesses hapi df f st)) ∧
    (∀ hapi dfs f st, StringsSubReflKeys st → StringsSubReflKeys (run hapi dfs f st)) :=
  run_preserve StringsSubReflKeys (fun _ _ _ h => h) (fun _ _ _ h => h) (fun _ _ h => h)
    stringsSub_strings_refl

theorem noSpace_strings_refl :
    ∀ (st : FinderState) (n : String) (v : MethodReference),
      n.data.contains ' ' = false → NoSpaceState st →
      NoSpaceState
        { st with strings_ := setInsert n st.strings_,
                  reflection_locations_ := mapAppend n v st.reflection_locations_ } := by
  intro st n v hn h
  obtain ⟨h1, h2⟩ := h
  constructor
  · intro s hs
    rcases mem_setInsert.mp hs with rfl | hs
    · exact hn
    · exact h1 s hs
  · intro k hk
    rw [keys_mapAppend] at hk
    rcases mem_setInsert.mp hk with rfl | hk
    · exact hn
    · exact h2 k hk

theorem preserve_NoSpace :
    (∀ hapi df r maxpc st l, NoSpaceState st → NoSpaceState (scanInsns hapi df r maxpc st l)) ∧
    (∀ hapi df f st, NoSpaceState st → NoSpaceState (collectAccesses hapi df f st)) ∧
    (∀ hapi dfs f st, NoSpaceState st → NoSpaceState (run hapi dfs f st)) :=
  run_preserve NoSpaceState (fun _ _ _ h => h) (fun _ _ _ h => h) (fun _ _ h => h)
    noSpace_strings_refl

theorem preserve_mem_classes (t : String) :
    (∀ hapi df r maxpc st l, t ∈ st.classes_ → t ∈ (scanInsns hapi df r maxpc st l).classes_) ∧
    (∀ hapi df f st, t ∈ st.classes_ → t ∈ (collectAccesses hapi df f st).classes_) ∧
    (∀ hapi dfs f st, t ∈ st.classes_ → t ∈ (run hapi dfs f st).classes_) :=
  run_preserve (fun st => t ∈ st.classes_) (fun _ _ _ h => h) (fun _ _ _ h => h)
    (fun _ _ h => mem_setInsert.mpr (Or.inr h)) (fun _ _ _ _ h => h)

theorem mem_insertTypes_mono {t : String} (st : FinderState) (names : List String)
    (h : t ∈ st.classes_) : t ∈ (insertTypes st names).classes_ := by
  unfold insertTypes
  exact foldl_preserve (fun s : FinderState => t ∈ s.classes_) _
    (fun _ _ hp => mem_setInsert.mpr (Or.inr hp)) _ _ h

theorem mem_insertTypes {t : String} :
    ∀ (names : List String) (st : FinderState), t ∈ names →
      t ∈ (insertTypes st names).classes_ := by
  intro names
  induction names with
  | nil => intro st h; simp at h
  | cons n rest ih =>
    intro st h
    rcases List.mem_cons.mp h with rfl | h
    · exact mem_insertTypes_mono _ rest (mem_setInsert.mpr (Or.inl rfl))
    · exact ih _ h

theorem mem_collectAccesses_typeIds {t : String} (hapi : HiddenApi) (df : DexFile)
    (f : String → Bool) (st : FinderState) (h : t ∈ df.typeIds) :
    t ∈ (collectAccesses hapi df f st).classes_ := by
  unfold collectAccesses
  refine foldl_preserve (fun s : FinderState => t ∈ s.classes_) _ ?_ _ _ (mem_insertTypes _ _ h)
  intro s cls hp
  by_cases hflt : f cls.descriptor
  · simp only [hflt, if_true]
    exact foldl_preserve (fun s' : FinderState => t ∈ s'.classes_) _
      (fun s' m hp' =>
        (preserve_mem_classes t).1 hapi df m.ref m.maxPc s' m.insns hp') _ _ hp
  · simpa [hflt] using hp

theorem mem_run_typeIds {t : String} (hapi : HiddenApi) (f : String → Bool) :
    ∀ (dfs : List DexFile) (st : FinderState) (df : DexFile), df ∈ dfs → t ∈ df.typeIds →
      t ∈ (run hapi dfs f st).classes_ := by
  intro dfs
  induction dfs with
  | nil => intro st df h; simp at h
  | cons d rest ih =>
    intro st df hmem ht
    rcases List.mem_cons.mp hmem with rfl | hmem
    · show t ∈ (run hapi rest f (collectAccesses hapi df f st)).classes_
      exact (preserve_mem_classes t).2.2 hapi rest f _
        (mem_collectAccesses_typeIds hapi df f st ht)
    · exact ih _ df hmem ht

theorem foldl_emit_append {α σ : Type} (f : String × σ → α → String × σ)
    (hf : ∀ (t : String) (s : σ) (x : α),
      f (t, s) x = (t ++ (f ("", s) x).1, (f ("", s) x).2)) :
    ∀ (l : List α) (t : String) (s : σ),
      l.foldl f (t, s) = (t ++ (l.foldl f ("", s)).1, (l.foldl f ("", s)).2) := by
  intro l
  induction l with
  | nil =>
    intro t s
    simp only [List.foldl]
    rw [Prod.mk.injEq]
    exact ⟨(String.append_empty t).symm, rfl⟩
  | cons x xs ih =>
    intro t s
    simp only [List.foldl]
    conv_rhs => rw [hf "" s x]
    rw [hf t s x]
    rw [ih (t ++ (f ("", s) x).1) (f ("", s) x).2,
        ih ("" ++ (f ("", s) x).1) (f ("", s) x).2]
    rw [Prod.mk.injEq]
    constructor
    · rw [String.empty_append, String.append_assoc]
    · rfl

theorem foldl_dumpDirectEntry_filter (hapi : HiddenApi) (resolve : MethodReference → String) :
    ∀ (l : List (String × List MethodReference)) (acc : String × HiddenApiStats),
      l.foldl (dumpDirectEntry hapi resolve) acc =
        (directFindings hapi l).foldl (renderDirectFinding hapi resolve) acc := by
  intro l
  induction l with
  | nil => intro acc; rfl
  | cons p rest ih =>
    intro acc
    cases hr : reportableB hapi p.1 with
    | true =>
      simp only [List.foldl, dumpDirectEntry, hr, if_true, directFindings, List.filter_cons]
      exact ih _
    | false =>
      simp only [List.foldl, dumpDirectEntry, hr, Bool.false_eq_true, if_false,
        directFindings, List.filter_cons]
      exact ih _

theorem renderDirectFinding_eq (hapi : HiddenApi) (resolve : MethodReference → String) :
    renderDirectFinding hapi resolve =
      fun (acc : String × HiddenApiStats) (p : String × List MethodReference) =>
        (acc.1 ++ directFindingText hapi resolve (directStatsUpdate hapi acc.2 p.1).count p,
         directStatsUpdate hapi acc.2 p.1) := rfl

theorem foldl_renderDirect_append (hapi : HiddenApi) (resolve : MethodReference → String)
    (l : List (String × List MethodReference)) (t : String) (s : HiddenApiStats) :
    l.foldl (renderDirectFinding hapi resolve) (t, s) =
      (t ++ (l.foldl (renderDirectFinding hapi resolve) ("", s)).1,
       (l.foldl (renderDirectFinding hapi resolve) ("", s)).2) :=
  foldl_emit_append (renderDirectFinding hapi resolve) (fun _ _ _ => rfl) l t s

theorem renderReflSpec_eq (hapi : HiddenApi) (resolve : MethodReference → String)
    (refl : List (String × List MethodReference)) :
    renderReflectionFindingSpec hapi resolve refl =
      fun (acc : String × HiddenApiStats) (p : String × String) =>
        (acc.1 ++ reflectionFindingText hapi resolve
          (reflectionStatsUpdate hapi acc.2 (p.1 ++ "->" ++ p.2)).count (p.1 ++ "->" ++ p.2)
          (mapFindD refl p.2),
         reflectionStatsUpdate hapi acc.2 (p.1 ++ "->" ++ p.2)) := rfl

theorem foldl_renderReflSpec_append (hapi : HiddenApi) (resolve : MethodReference → String)
    (refl : List (String × List MethodReference))
    (l : List (String × String)) (t : String) (s : HiddenApiStats) :
    l.foldl (renderReflectionFindingSpec hapi resolve refl) (t, s) =
      (t ++ (l.foldl (renderReflectionFindingSpec hapi resolve refl) ("", s)).1,
       (l.foldl (renderReflectionFindingSpec hapi resolve refl) ("", s)).2) :=
  foldl_emit_append (renderReflectionFindingSpec hapi resolve refl) (fun _ _ _ => rfl) l t s

theorem foldl_reflInner (hapi : HiddenApi) (resolve : MethodReference → String)
    (refl : List (String × List MethodReference)) (cls : String) :
    ∀ (strings : List String) (t : String) (s : HiddenApiStats)
      (m : List (String × List MethodReference)),
      SortedStrings (keys m) → (∀ k, mapFindD m k = mapFindD refl k) →
      (strings.foldl (dumpReflectionEntry hapi resolve cls) (t, s, m)).1 =
        (((strings.filter fun n => reportableB hapi (cls ++ "->" ++ n)).map
          (fun n => (cls, n))).foldl
            (renderReflectionFindingSpec hapi resolve refl) (t, s)).1 ∧
      (strings.foldl (dumpReflectionEntry hapi resolve cls) (t, s, m)).2.1 =
        (((strings.filter fun n => reportableB hapi (cls ++ "->" ++ n)).map
          (fun n => (cls, n))).foldl
            (renderReflectionFindingSpec hapi resolve refl) (t, s)).2 ∧
      SortedStrings
        (keys (strings.foldl (dumpReflectionEntry hapi resolve cls) (t, s, m)).2.2) ∧
      (∀ k, mapFindD (strings.foldl (dumpReflectionEntry hapi resolve cls) (t, s, m)).2.2 k =
        mapFindD refl k) := by
  intro strings
  induction strings with
  | nil => intro t s m hm hfind; exact ⟨rfl, rfl, hm, hfind⟩
  | cons n rest ih =>
    intro t s m hm hfind
    cases hr : reportableB hapi (cls ++ "->" ++ n) with
    | false =>
      simp only [List.foldl, dumpReflectionEntry, hr, Bool.false_eq_true, if_false,
        List.filter_cons]
      exact ih t s m hm hfind
    | true =>
      have hfst : (mapGetOrInsert n m).1 = mapFindD refl n := by
        rw [mapGetOrInsert_fst hm]; exact hfind n
      have hm' : SortedStrings (keys (mapGetOrInsert n m).2) := by
        rw [keys_mapGetOrInsert]; exact sorted_setInsert hm
      have hfind' : ∀ k, mapFindD (mapGetOrInsert n m).2 k = mapFindD refl k := by
        intro k; rw [mapFindD_mapGetOrInsert hm k]; exact hfind k
      simp only [List.foldl, dumpReflectionEntry, hr, if_true, List.filter_cons,
        List.map_cons]
      rw [hfst]
      exact ih _ _ _ hm' hfind'

theorem foldl_reflOuter (hapi : HiddenApi) (resolve : MethodReference → String)
    (refl : List (String × List MethodReference)) :
    ∀ (classes strings : List String) (t : String) (s : HiddenApiStats)
      (m : List (String × List MethodReference)),
      SortedStrings (keys m) → (∀ k, mapFindD m k = mapFindD refl k) →
      (classes.foldl
        (fun acc cls => strings.foldl (dumpReflectionEntry hapi resolve cls) acc)
        (t, s, m)).1 =
        ((reflectionFindings hapi classes strings).foldl
          (renderReflectionFindingSpec hapi resolve refl) (t, s)).1 ∧
      (classes.foldl
        (fun acc cls => strings.foldl (dumpReflectionEntry hapi resolve cls) acc)
        (t, s, m)).2.1 =
        ((reflectionFindings hapi classes strings).foldl
          (renderReflectionFindingSpec hapi resolve refl) (t, s)).2 ∧
      SortedStrings (keys (classes.foldl
        (fun acc cls => strings.foldl (dumpReflectionEntry hapi resolve cls) acc)
        (t, s, m)).2.2) ∧
      (∀ k, mapFindD (classes.foldl
        (fun acc cls => strings.foldl (dumpReflectionEntry hapi resolve cls) acc)
        (t, s, m)).2.2 k = mapFindD refl k) := by
  intro classes
  induction classes with
  | nil =>
    intro strings t s m hm hfind
    exact ⟨rfl, rfl, hm, hfind⟩
  | cons cls rest ih =>
    intro strings t s m hm hfind
    simp only [List.foldl, reflectionFindings, List.flatMap_cons, List.foldl_append]
    obtain ⟨h1, h2, h3, h4⟩ := foldl_reflInner hapi resolve refl cls strings t s m hm hfind
    have hmid :
        (strings.foldl (dumpReflectionEntry hapi resolve cls) (t, s, m)).2 =
          ((strings.foldl (dumpReflectionEntry hapi resolve cls) (t, s, m)).2.1,
           (strings.foldl (dumpReflectionEntry hapi resolve cls) (t, s, m)).2.2) := rfl
    obtain ⟨g1, g2, g3, g4⟩ := ih strings
      (strings.foldl (dumpReflectionEntry hapi resolve cls) (t, s, m)).1
      (strings.foldl (dumpReflectionEntry hapi resolve cls) (t, s, m)).2.1
      (strings.foldl (dumpReflectionEntry hapi resolve cls) (t, s, m)).2.2 h3 h4
    refine ⟨?_, ?_, ?_, ?_⟩
    · rw [show (strings.foldl (dumpReflectionEntry hapi resolve cls) (t, s, m)) =
        ((strings.foldl (dumpReflectionEntry hapi resolve cls) (t, s, m)).1,
         (strings.foldl (dumpReflectionEntry hapi resolve cls) (t, s, m)).2.1,
         (strings.foldl (dumpReflectionEntry hapi resolve cls) (t, s, m)).2.2) from rfl]
      rw [g1, h1, h2, Prod.mk.eta]
      simp only [reflectionFindings]
    · rw [show (strings.foldl (dumpReflectionEntry hapi resolve cls) (t, s, m)) =
        ((strings.foldl (dumpReflectionEntry hapi resolve cls) (t, s, m)).1,
         (strings.foldl (dumpReflectionEntry hapi resolve cls) (t, s, m)).2.1,
         (strings.foldl (dumpReflectionEntry hapi resolve cls) (t, s, m)).2.2) from rfl]
      rw [g2, h1, h2, Prod.mk.eta]
      simp only [reflectionFindings]
    · rw [show (strings.foldl (dumpReflectionEntry hapi resolve cls) (t, s, m)) =
        ((strings.foldl (dumpReflectionEntry hapi resolve cls) (t, s, m)).1,
         (strings.foldl (dumpReflectionEntry hapi resolve cls) (t, s, m)).2.1,
         (strings.foldl (dumpReflectionEntry hapi resolve cls) (t, s, m)).2.2) from rfl]
      exact g3
    · rw [show (strings.foldl (dumpReflectionEntry hapi resolve cls) (t, s, m)) =
        ((strings.foldl (dumpReflectionEntry hapi resolve cls) (t, s, m)).1,
         (strings.foldl (dumpReflectionEntry hapi resolve cls) (t, s, m)).2.1,
         (strings.foldl (dumpReflectionEntry hapi resolve cls) (t, s, m)).2.2) from rfl]
      exact g4

theorem foldl_reflInner_mapEq (hapi : HiddenApi) (resolve : MethodReference → String)
    (cls : String) :
    ∀ (strings : List String) (t : String) (s : HiddenApiStats)
      (m : List (String × List MethodReference)),
      SortedStrings (keys m) → (∀ n ∈ strings, n ∈ keys m) →
      (strings.foldl (dumpReflectionEntry hapi resolve cls) (t, s, m)).2.2 = m := by
  intro strings
  induction strings with
  | nil => intro t s m _ _; rfl
  | cons n rest ih =>
    intro t s m hm hmem
    cases hr : reportableB hapi (cls ++ "->" ++ n) with
    | false =>
      simp only [List.foldl, dumpReflectionEntry, hr, Bool.false_eq_true, if_false]
      exact ih t s m hm (fun x hx => hmem x (List.mem_cons.mpr (Or.inr hx)))
    | true =>
      have hin : n ∈ keys m := hmem n (List.mem_cons.mpr (Or.inl rfl))
      have heq : (mapGetOrInsert n m).2 = m := mapGetOrInsert_of_mem hm hin
      simp only [List.foldl, dumpReflectionEntry, hr, if_true, heq]
      exact ih _ _ m hm (fun x hx => hmem x (List.mem_cons.mpr (Or.inr hx)))

theorem foldl_reflOuter_mapEq (hapi : HiddenApi) (resolve : MethodReference → String) :
    ∀ (classes strings : List String) (t : String) (s : HiddenApiStats)
      (m : List (String × List MethodReference)),
      SortedStrings (keys m) → (∀ n ∈ strings, n ∈ keys m) →
      (classes.foldl
        (fun acc cls => strings.foldl (dumpReflectionEntry hapi resolve cls) acc)
        (t, s, m)).2.2 = m := by
  intro classes
  induction classes with
  | nil => intro strings t s m _ _; rfl
  | cons cls rest ih =>
    intro strings t s m hm hmem
    simp only [List.foldl]
    have hmid := foldl_reflInner_mapEq hapi resolve cls strings t s m hm hmem
    rw [show (strings.foldl (dumpReflectionEntry hapi resolve cls) (t, s, m)) =
      ((strings.foldl (dumpReflectionEntry hapi resolve cls) (t, s, m)).1,
       (strings.foldl (dumpReflectionEntry hapi resolve cls) (t, s, m)).2.1,
       (strings.foldl (dumpReflectionEntry hapi resolve cls) (t, s, m)).2.2) from rfl,
      hmid]
    exact ih strings _ _ m hm hmem

theorem Dump_state (hapi : HiddenApi) (resolve : MethodReference → String)
    (st : FinderState) (stats : HiddenApiStats) (dr : Bool)
    (hm : SortedStrings (keys st.reflection_locations_))
    (hsub : ∀ n ∈ st.strings_, n ∈ keys st.reflection_locations_) :
    (Dump hapi resolve st stats dr).2.2 = st := by
  cases dr with
  | false => rfl
  | true =>
    have h := foldl_reflOuter_mapEq hapi resolve st.classes_ st.strings_
      (st.field_locations_.foldl (dumpDirectEntry hapi resolve)
        (st.method_locations_.foldl (dumpDirectEntry hapi resolve) ("", stats))).1
      (st.field_locations_.foldl (dumpDirectEntry hapi resolve)
        (st.method_locations_.foldl (dumpDirectEntry hapi resolve) ("", stats))).2
      st.reflection_locations_ hm hsub
    show ({ st with reflection_locations_ :=
      (st.classes_.foldl
        (fun acc cls => st.strings_.foldl (dumpReflectionEntry hapi resolve cls) acc)
        ((st.field_locations_.foldl (dumpDirectEntry hapi resolve)
            (st.method_locations_.foldl (dumpDirectEntry hapi resolve) ("", stats))).1,
         (st.field_locations_.foldl (dumpDirectEntry hapi resolve)
            (st.method_locations_.foldl (dumpDirectEntry hapi resolve) ("", stats))).2,
         st.reflection_locations_)).2.2 } : FinderState) = st
    rw [h]

theorem Dump_true_parts (hapi : HiddenApi) (resolve : MethodReference → String)
    (st : FinderState) (stats : HiddenApiStats)
    (hm : SortedStrings (keys st.reflection_locations_)) :
    (Dump hapi resolve st stats true).1 =
      (Dump hapi resolve st stats false).1 ++
        ((reflectionFindings hapi st.classes_ st.strings_).foldl
          (renderReflectionFindingSpec hapi resolve st.reflection_locations_)
          ("", (Dump hapi resolve st stats false).2.1)).1 ∧
    (Dump hapi resolve st stats true).2.1 =
      ((reflectionFindings hapi st.classes_ st.strings_).foldl
        (renderReflectionFindingSpec hapi resolve st.reflection_locations_)
        ("", (Dump hapi resolve st stats false).2.1)).2 := by
  obtain ⟨o1, o2, _, _⟩ := foldl_reflOuter hapi resolve st.reflection_locations_
    st.classes_ st.strings_
    (st.field_locations_.foldl (dumpDirectEntry hapi resolve)
      (st.method_locations_.foldl (dumpDirectEntry hapi resolve) ("", stats))).1
    (st.field_locations_.foldl (dumpDirectEntry hapi resolve)
      (st.method_locations_.foldl (dumpDirectEntry hapi resolve) ("", stats))).2
    st.reflection_locations_ hm (fun _ => rfl)
  constructor
  · show (st.classes_.foldl
      (fun acc cls => st.strings_.foldl (dumpReflectionEntry hapi resolve cls) acc)
      ((st.field_locations_.foldl (dumpDirectEntry hapi resolve)
          (st.method_locations_.foldl (dumpDirectEntry hapi resolve) ("", stats))).1,
       (st.field_locations_.foldl (dumpDirectEntry hapi resolve)
          (st.method_locations_.foldl (dumpDirectEntry hapi resolve) ("", stats))).2,
       st.reflection_locations_)).1 = _
    rw [o1, foldl_renderReflSpec_append]
    rfl
  · show (st.classes_.foldl
      (fun acc cls => st.strings_.foldl (dumpReflectionEntry hapi resolve cls) acc)
      ((st.field_locations_.foldl (dumpDirectEntry hapi resolve)
          (st.method_locations_.foldl (dumpDirectEntry hapi resolve) ("", stats))).1,
       (st.field_locations_.foldl (dumpDirectEntry hapi resolve)
          (st.method_locations_.foldl (dumpDirectEntry hapi resolve) ("", stats))).2,
       st.reflection_locations_)).2.1 = _
    rw [o2, foldl_renderReflSpec_append]
    rfl

theorem Dump_text_decomposition (hapi : HiddenApi) (resolve : MethodReference → String)
    (st : FinderState) (stats : HiddenApiStats) (dr : Bool)
    (hm : SortedStrings (keys st.reflection_locations_)) :
    (Dump hapi resolve st stats dr).1 =
      ((directFindings hapi st.field_locations_).foldl (renderDirectFinding hapi resolve)
        ((directFindings hapi st.method_locations_).foldl (renderDirectFinding hapi resolve)
          ("", stats))).1 ++
      (if dr then
        ((reflectionFindings hapi st.classes_ st.strings_).foldl
          (renderReflectionFindingSpec hapi resolve st.reflection_locations_)
          ("", ((directFindings hapi st.field_locations_).foldl
            (renderDirectFinding hapi resolve)
            ((directFindings hapi st.method_locations_).foldl
              (renderDirectFinding hapi resolve) ("", stats))).2)).1
      else "") := by
  have hfalse1 : (Dump hapi resolve st stats false).1 =
      ((directFindings hapi st.field_locations_).foldl (renderDirectFinding hapi resolve)
        ((directFindings hapi st.method_locations_).foldl (renderDirectFinding hapi resolve)
          ("", stats))).1 := by
    show (st.field_locations_.foldl (dumpDirectEntry hapi resolve)
      (st.method_locations_.foldl (dumpDirectEntry hapi resolve) ("", stats))).1 = _
    rw [foldl_dumpDirectEntry_filter, foldl_dumpDirectEntry_filter]
  have hfalse2 : (Dump hapi resolve st stats false).2.1 =
      ((directFindings hapi st.field_locations_).foldl (renderDirectFinding hapi resolve)
        ((directFindings hapi st.method_locations_).foldl (renderDirectFinding hapi resolve)
          ("", stats))).2 := by
    show (st.field_locations_.foldl (dumpDirectEntry hapi resolve)
      (st.method_locations_.foldl (dumpDirectEntry hapi resolve) ("", stats))).2 = _
    rw [foldl_dumpDirectEntry_filter, foldl_dumpDirectEntry_filter]
  cases dr with
  | false =>
    rw [if_neg (by exact Bool.noConfusion), String.append_empty]
    exact hfalse1
  | true =>
    obtain ⟨h1, _⟩ := Dump_true_parts hapi resolve st stats hm
    rw [h1, hfalse1, hfalse2, if_pos rfl]

theorem sorted_filter {q : String → Bool} :
    ∀ {l : List String}, SortedStrings l → SortedStrings (l.filter q) :=
  fun h => List.Pairwise.sublist (List.filter_sublist _) h

theorem sorted_directFindings (hapi : HiddenApi)
    {l : List (String × List MethodReference)} (h : SortedStrings (keys l)) :
    SortedStrings (keys (directFindings hapi l)) := by
  have hsub : List.Sublist (keys (directFindings hapi l)) (keys l) :=
    List.Sublist.map Prod.fst (List.filter_sublist l)
  exact List.Pairwise.sublist hsub h

theorem mem_reflectionFindings (hapi : HiddenApi) (classes strings : List String)
    (c n : String) :
    (c, n) ∈ reflectionFindings hapi classes strings ↔
      c ∈ classes ∧ n ∈ strings ∧ reportableB hapi (c ++ "->" ++ n) = true := by
  simp only [reflectionFindings, List.mem_flatMap, List.mem_map, List.mem_filter]
  constructor
  · rintro ⟨cls, hcls, x, ⟨hx, hrep⟩, heq⟩
    obtain ⟨h1, h2⟩ := Prod.mk.injEq .. ▸ heq
    injection heq with e1 e2
    subst e1
    subst e2
    exact ⟨hcls, hx, hrep⟩
  · rintro ⟨hc, hn, hrep⟩
    exact ⟨c, hc, n, ⟨hn, hrep⟩, rfl⟩

theorem pairwise_reflectionFindings (hapi : HiddenApi) :
    ∀ {classes strings : List String}, SortedStrings classes → SortedStrings strings →
      (reflectionFindings hapi classes strings).Pairwise PairLT := by
  intro classes
  induction classes with
  | nil => intro strings _ _; simp [reflectionFindings]
  | cons cls rest ih =>
    intro strings hc hs
    obtain ⟨hhead, htail⟩ := List.pairwise_cons.mp hc
    simp only [reflectionFindings, List.flatMap_cons]
    rw [List.pairwise_append]
    refine ⟨?_, ih htail hs, ?_⟩
    · refine List.Pairwise.map _ ?_ (sorted_filter hs)
      intro a b hab
      exact Or.inr ⟨rfl, hab⟩
    · intro a ha b hb
      obtain ⟨x, hx, hax⟩ := List.mem_map.mp ha
      obtain ⟨c', hc', n', ⟨hn', hrep'⟩, hbe⟩ := by
        simpa only [List.mem_flatMap, List.mem_map, List.mem_filter] using hb
      subst hax
      subst hbe
      exact Or.inl (hhead c' hc')

theorem sortedState_empty : SortedState emptyState := by decide

theorem stringsSub_empty : StringsSubReflKeys emptyState := by decide

theorem mem_takeWhile_of_lt {maxpc : Nat} :
    ∀ {insns : List (Nat × Insn)},
      List.Pairwise (fun a b => a.1 < b.1) insns →
      ∀ p ∈ insns, p.1 < maxpc →
        p ∈ insns.takeWhile (fun q => decide (q.1 < maxpc)) := by
  intro insns
  induction insns with
  | nil => intro _ p hp; simp at hp
  | cons q rest ih =>
    intro hmono p hp hlt
    obtain ⟨hq, htl⟩ := List.pairwise_cons.mp hmono
    rcases List.mem_cons.mp hp with rfl | hp
    · rw [List.takeWhile_cons, if_pos (by simpa using hlt)]
      exact List.mem_cons.mpr (Or.inl rfl)
    · have hq' : q.1 < maxpc := lt_trans (hq p hp) hlt
      rw [List.takeWhile_cons, if_pos (by simpa using hq')]
      exact List.mem_cons.mpr (Or.inr (ih htl p hp hlt))

/-- C1: for a string-constant load of a space-free literal, exactly one of
three outcomes occurs, tried in this order: the internal form is a known
restricted name (insert the internal form into TypeNameSet); else the raw
literal is a known restricted name (insert the raw literal into TypeNameSet);
else the raw literal goes into LiteralStringSet and the call site is appended
under it in ReflectionLocationIndex.  The record updates show that the
first two branches leave LiteralStringSet and ReflectionLocationIndex
untouched. -/
theorem constString_three_outcomes (hapi : HiddenApi) (df : DexFile)
    (mref : MethodReference) (st : FinderState) (idx : Nat)
    (hns : (df.stringTable idx).data.contains ' ' = false) :
    (hapi.isInBoot (toInternalName (df.stringTable idx)) = true →
      processInstruction hapi df mref st (Insn.constString idx) =
        { st with classes_ := setInsert (toInternalName (df.stringTable idx)) st.classes_ }) ∧
    (hapi.isInBoot (toInternalName (df.stringTable idx)) = false →
      hapi.isInBoot (df.stringTable idx) = true →
      processInstruction hapi df mref st (Insn.constString idx) =
        { st with classes_ := setInsert (df.stringTable idx) st.classes_ }) ∧
    (hapi.isInBoot (toInternalName (df.stringTable idx)) = false →
      hapi.isInBoot (df.stringTable idx) = false →
      processInstruction hapi df mref st (Insn.constString idx) =
        { st with strings_ := setInsert (df.stringTable idx) st.strings_,
                  reflection_locations_ :=
                    mapAppend (df.stringTable idx) mref st.reflection_locations_ }) := by
  have hns' : ' ' ∉ (df.stringTable idx).data := by simpa using hns
  refine ⟨?_, ?_, ?_⟩
  · intro h1
    simp [processInstruction, hns', h1]
  · intro h1 h2
    simp [processInstruction, hns', h1, h2]
  · intro h1 h2
    simp [processInstruction, hns', h1, h2]

theorem constString_three_outcomes_witness :
    ((dfLit.stringTable 0).data.contains ' ' = false) ∧
    (hapiAll.isInBoot (toInternalName (dfLit.stringTable 0)) = false →
      hapiAll.isInBoot (dfLit.stringTable 0) = false →
      processInstruction hapiAll dfLit mrefA emptyState (Insn.constString 0) =
        { emptyState with
            strings_ := setInsert (dfLit.stringTable 0) emptyState.strings_
            reflection_locations_ :=
              mapAppend (dfLit.stringTable 0) mrefA emptyState.reflection_locations_ }) :=
  ⟨by decide,
   (constString_three_outcomes hapiAll dfLit mrefA emptyState 0 (by decide)).2.2⟩

/-- C2: with reflection enabled, the dump text extends the direct-pass text by
the rendering of exactly the cross-product pairs whose candidate name passes
the emission condition, each rendered with the locations looked up for the
pair's literal in the pre-dump ReflectionLocationIndex (not filtered by the
class); and pair membership in the findings is characterized by exactly that
condition. -/
theorem reflection_pass_characterization (hapi : HiddenApi)
    (resolve : MethodReference → String) (st : FinderState) (stats : HiddenApiStats)
    (hm : SortedStrings (keys st.reflection_locations_)) :
    ((Dump hapi resolve st stats true).1 =
      (Dump hapi resolve st stats false).1 ++
        ((reflectionFindings hapi st.classes_ st.strings_).foldl
          (renderReflectionFindingSpec hapi resolve st.reflection_locations_)
          ("", (Dump hapi resolve st stats false).2.1)).1) ∧
    (∀ c n, (c, n) ∈ reflectionFindings hapi st.classes_ st.strings_ ↔
      c ∈ st.classes_ ∧ n ∈ st.strings_ ∧ reportableB hapi (c ++ "->" ++ n) = true) :=
  ⟨(Dump_true_parts hapi resolve st stats hm).1,
   fun c n => mem_reflectionFindings hapi st.classes_ st.strings_ c n⟩

theorem reflection_pass_characterization_witness :
    SortedStrings (keys stRefl.reflection_locations_) ∧
    (("La;", "x") ∈ reflectionFindings hapiAll stRefl.classes_ stRefl.strings_ ↔
      "La;" ∈ stRefl.classes_ ∧ "x" ∈ stRefl.strings_ ∧
        reportableB hapiAll ("La;" ++ "->" ++ "x") = true) :=
  ⟨by decide,
   (reflection_pass_characterization hapiAll resolveConst stRefl statsZero
     (by decide)).2 "La;" "x"⟩

/-- C3 (amended): dump emits the method pass, then the field pass, then (only
when enabled) the reflection pass; a direct entry is emitted exactly when its
name passes the emission condition; direct-pass entries are visited in
strictly ascending key order for states built by `run`; and the reflection
pass visits pairs ascending by class first and then by literal (the literal
sequence alone is ascending only within one class block). -/
theorem dump_pass_order_and_sortedness (hapi : HiddenApi)
    (resolve : MethodReference → String) (st : FinderState) (stats : HiddenApiStats)
    (dr : Bool) (dfs : List DexFile) (f : String → Bool)
    (hm : SortedStrings (keys st.reflection_locations_)) :
    ((Dump hapi resolve st stats dr).1 =
      ((directFindings hapi st.field_locations_).foldl (renderDirectFinding hapi resolve)
        ((directFindings hapi st.method_locations_).foldl (renderDirectFinding hapi resolve)
          ("", stats))).1 ++
      (if dr then
        ((reflectionFindings hapi st.classes_ st.strings_).foldl
          (renderReflectionFindingSpec hapi resolve st.reflection_locations_)
          ("", ((directFindings hapi st.field_locations_).foldl
            (renderDirectFinding hapi resolve)
            ((directFindings hapi st.method_locations_).foldl
              (renderDirectFinding hapi resolve) ("", stats))).2)).1
      else "")) ∧
    SortedStrings (keys (directFindings hapi (run hapi dfs f emptyState).method_locations_)) ∧
    SortedStrings (keys (directFindings hapi (run hapi dfs f emptyState).field_locations_)) ∧
    (reflectionFindings hapi (run hapi dfs f emptyState).classes_
      (run hapi dfs f emptyState).strings_).Pairwise PairLT := by
  have hrun := preserve_SortedState.2.2 hapi dfs f emptyState sortedState_empty
  exact ⟨Dump_text_decomposition hapi resolve st stats dr hm,
    sorted_directFindings hapi hrun.1,
    sorted_directFindings hapi hrun.2.1,
    pairwise_reflectionFindings hapi hrun.2.2.1 hrun.2.2.2.1⟩

/-- C3 counterexample: with two collected classes and two collected literals,
all candidates reportable, the reflection pass emits the literals in the
order x, y, x, y — not ascending over the literal string, refuting the
claim's "lexicographic ascending order over literal string for the
reflection pass". -/
theorem dump_reflection_literal_order_counterexample :
    (reflectionFindings hapiAll stRefl.classes_ stRefl.strings_).map Prod.snd =
      ["x", "y", "x", "y"] ∧
    ¬ List.Pairwise (fun a b => strLt b a = false)
      ((reflectionFindings hapiAll stRefl.classes_ stRefl.strings_).map Prod.snd) :=
  ⟨rfl, by decide⟩

theorem dump_pass_order_witness :
    SortedStrings (keys stRefl.reflection_locations_) ∧
    (reflectionFindings hapiAll (run hapiAll [dfTab] (fun _ => true) emptyState).classes_
      (run hapiAll [dfTab] (fun _ => true) emptyState).strings_).Pairwise PairLT :=
  ⟨by decide,
   (dump_pass_order_and_sortedness hapiAll resolveConst stRefl statsZero true
     [dfTab] (fun _ => true) (by decide)).2.2.2⟩

/-- C4: the rendered call-site list of a finding deduplicates references by
resolved textual form (one counts entry per distinct form), visits forms in
strictly ascending order, stores the exact occurrence count, renders one line
per entry — seven spaces, the form, the parenthesized count exactly when it
is above one — and in particular two call sites with the same textual form
produce one line suffixed with "(2 occurrences)". -/
theorem dumpReferences_characterization (resolve : MethodReference → String)
    (references : List MethodReference) :
    SortedStrings (keys (refCounts resolve references)) ∧
    (∀ s, s ∈ keys (refCounts resolve references) ↔ s ∈ references.map resolve) ∧
    (∀ p ∈ refCounts resolve references, p.2 = (references.map resolve).count p.1) ∧
    (dumpReferences resolve references =
      concatLines ((refCounts resolve references).map referenceLine)) ∧
    (∀ r1 r2 : MethodReference, resolve r1 = resolve r2 →
      dumpReferences resolve [r1, r2] =
        "       " ++ resolve r1 ++ " (2 occurrences)" ++ "\n") := by
  have hs : SortedStrings (keys (refCounts resolve references)) := by
    unfold refCounts
    exact sorted_keys_foldl_mapIncr resolve references [] List.Pairwise.nil
  refine ⟨hs, ?_, ?_, ?_, ?_⟩
  · intro s
    unfold refCounts
    rw [mem_keys_foldl_mapIncr]
    simp [keys]
  · intro p hp
    have hp' : (p.1, p.2) ∈ refCounts resolve references := by
      rw [Prod.mk.eta]; exact hp
    have h1 : lookupNat (refCounts resolve references) p.1 = p.2 :=
      lookupNat_of_mem hs hp'
    have h2 : lookupNat (refCounts resolve references) p.1 =
        lookupNat [] p.1 + (references.map resolve).count p.1 := by
      unfold refCounts
      exact lookupNat_foldl_mapIncr resolve references [] p.1 List.Pairwise.nil
    simp only [lookupNat] at h2
    omega
  · unfold dumpReferences
    rw [foldl_append_concatLines referenceLine]
    exact String.empty_append _
  · intro r1 r2 h
    have e2 : refCounts resolve [r1, r2] = [(resolve r1, 2)] := by
      simp [refCounts, mapIncr, ← h, strLt_irrefl]
    have hif : (if (1 : Nat) < 2 then " (" ++ toString (2 : Nat) ++ " occurrences)" else "") =
        " (2 occurrences)" := rfl
    simp only [dumpReferences, e2, List.foldl, referenceLine]
    rw [hif, String.empty_append]

theorem dumpReferences_characterization_witness :
    (resolveConst mrefA = resolveConst mrefB) ∧
    dumpReferences resolveConst [mrefA, mrefB] =
      "       " ++ resolveConst mrefA ++ " (2 occurrences)" ++ "\n" :=
  ⟨rfl,
   (dumpReferences_characterization resolveConst [mrefA, mrefB]).2.2.2.2 mrefA mrefB rfl⟩

/-- C5: the per-method scan processes exactly the longest prefix of the
instruction stream whose program counters are below the declared bound (no
error is signalled — the fold simply stops); every processed instruction is
below the bound; and under strictly increasing program counters every
instruction below the bound is in the processed prefix. -/
theorem scan_bounds_safety (hapi : HiddenApi) (df : DexFile) (mref : MethodReference)
    (maxpc : Nat) (st : FinderState) (insns : List (Nat × Insn)) :
    (scanInsns hapi df mref maxpc st insns =
      (insns.takeWhile (fun q => decide (q.1 < maxpc))).foldl
        (fun s p => processInstruction hapi df mref s p.2) st) ∧
    (∀ p ∈ insns.takeWhile (fun q => decide (q.1 < maxpc)), p.1 < maxpc) ∧
    (List.Pairwise (fun a b => a.1 < b.1) insns →
      ∀ p ∈ insns, p.1 < maxpc →
        p ∈ insns.takeWhile (fun q => decide (q.1 < maxpc))) := by
  refine ⟨scanInsns_eq_takeWhile hapi df mref maxpc insns st, ?_, ?_⟩
  · intro p hp
    simpa using List.mem_takeWhile_imp hp
  · intro hmono p hp hlt
    exact mem_takeWhile_of_lt hmono p hp hlt

theorem scan_bounds_safety_witness :
    (List.Pairwise (fun (a b : Nat × Insn) => a.1 < b.1) insnsW) ∧
    (∀ p ∈ insnsW, p.1 < 5 → p ∈ insnsW.takeWhile (fun q => decide (q.1 < 5))) :=
  ⟨by decide,
   (scan_bounds_safety hapiAll dfLit mrefA 5 emptyState insnsW).2.2 (by decide)⟩

/-- C6: dumping twice over the same aggregated state (the state produced by
`run`, with fresh stats each time and no re-scan in between) yields
byte-identical text: the second dump runs on the state the first one
returned, which is unchanged. -/
theorem dump_deterministic (hapi : HiddenApi) (resolve : MethodReference → String)
    (dfs : List DexFile) (f : String → Bool) (stats : HiddenApiStats) (dr : Bool) :
    (Dump hapi resolve
      (Dump hapi resolve (run hapi dfs f emptyState) stats dr).2.2 stats dr).1 =
      (Dump hapi resolve (run hapi dfs f emptyState) stats dr).1 := by
  rw [Dump_state hapi resolve (run hapi dfs f emptyState) stats dr
    (preserve_SortedState.2.2 hapi dfs f emptyState sortedState_empty).2.2.2.2
    (preserve_StringsSub.2.2 hapi dfs f emptyState stringsSub_empty)]

/-- C7 (amended): a literal containing a space character is skipped entirely
(the instruction is a no-op); and no member of LiteralStringSet and no key of
ReflectionLocationIndex ever contains a space character — preserved by every
single instruction, every method scan, every unit and a whole run.  (The code
checks only for the space character, not for all whitespace.) -/
theorem literal_no_space_invariant (hapi : HiddenApi) (df : DexFile)
    (mref : MethodReference) (idx : Nat) (maxpc : Nat) (insns : List (Nat × Insn))
    (f : String → Bool) (dfs : List DexFile) (st : FinderState) (i : Insn)
    (h : NoSpaceState st) :
    ((df.stringTable idx).data.contains ' ' = true →
      processInstruction hapi df mref st (Insn.constString idx) = st) ∧
    NoSpaceState (processInstruction hapi df mref st i) ∧
    NoSpaceState (scanInsns hapi df mref maxpc st insns) ∧
    NoSpaceState (collectAccesses hapi df f st) ∧
    NoSpaceState (run hapi dfs f st) := by
  refine ⟨?_, ?_, preserve_NoSpace.1 hapi df mref maxpc st insns h,
    preserve_NoSpace.2.1 hapi df f st h, preserve_NoSpace.2.2 hapi dfs f st h⟩
  · intro hsp
    have hsp' : ' ' ∈ (df.stringTable idx).data := by simpa using hsp
    simp [processInstruction, hsp']
  · exact processInstruction_preserve NoSpaceState (fun _ _ _ h => h) (fun _ _ _ h => h)
      (fun _ _ h => h) noSpace_strings_refl hapi df mref st i h

/-- C7 counterexample: the literal "a\tb" contains whitespace (a tab) but no
space character, so the scan does add it to LiteralStringSet — refuting the
claim that every string held there contains no whitespace. -/
theorem literal_whitespace_counterexample :
    ("a\tb" ∈ (run hapiAll [dfTab] (fun _ => true) emptyState).strings_) ∧
    ("a\tb".data.any Char.isWhitespace = true) := by
  exact ⟨by decide, by decide⟩

theorem literal_no_space_invariant_witness :
    NoSpaceState emptyState ∧
    NoSpaceState (run hapiAll [dfLit] (fun _ => true) emptyState) :=
  ⟨by decide,
   (literal_no_space_invariant hapiAll dfLit mrefA 0 3 [] (fun _ => true) [dfLit]
     emptyState Insn.other (by decide)).2.2.2.2⟩

/-- C8: every type descriptor of every scanned unit's type table is inserted
into TypeNameSet, for any class-selection predicate — in particular for a
predicate matching no class. -/
theorem type_table_unconditional (hapi : HiddenApi) (dfs : List DexFile)
    (f : String → Bool) (st : FinderState) :
    (∀ df ∈ dfs, ∀ t ∈ df.typeIds, t ∈ (run hapi dfs f st).classes_) ∧
    (∀ (df : DexFile) (g : String → Bool), ∀ t ∈ df.typeIds,
      t ∈ (collectAccesses hapi df g st).classes_) :=
  ⟨fun df hdf t ht => mem_run_typeIds hapi f dfs st df hdf ht,
   fun df g t ht => mem_collectAccesses_typeIds hapi df g st ht⟩

theorem type_table_unconditional_witness :
    ("La;" ∈ dfTypes.typeIds) ∧
    ("La;" ∈ (run hapiAll [dfTypes] (fun _ => false) emptyState).classes_) :=
  ⟨by decide,
   (type_table_unconditional hapiAll [dfTypes] (fun _ => false) emptyState).1 dfTypes
     (List.mem_singleton.mpr rfl) "La;" (by decide)⟩

/-- C9: if every key of ReflectionLocationIndex is a member of
LiteralStringSet, this remains so after every single instruction (the one
step that touches the index also inserts the same literal into the string
set), after every method scan, every unit, and a whole run — so it holds at
every point during and after a run started from a state satisfying it. -/
theorem refl_keys_subset_invariant (hapi : HiddenApi) (df : DexFile)
    (mref : MethodReference) (maxpc : Nat) (i : Insn) (insns : List (Nat × Insn))
    (f : String → Bool) (dfs : List DexFile) (st : FinderState)
    (h : ReflKeysSubStrings st) :
    ReflKeysSubStrings (processInstruction hapi df mref st i) ∧
    ReflKeysSubStrings (scanInsns hapi df mref maxpc st insns) ∧
    ReflKeysSubStrings (collectAccesses hapi df f st) ∧
    ReflKeysSubStrings (run hapi dfs f st) :=
  ⟨processInstruction_preserve ReflKeysSubStrings (fun _ _ _ h => h) (fun _ _ _ h => h)
    (fun _ _ h => h) reflSub_strings_refl hapi df mref st i h,
   preserve_ReflKeysSub.1 hapi df mref maxpc st insns h,
   preserve_ReflKeysSub.2.1 hapi df f st h,
   preserve_ReflKeysSub.2.2 hapi dfs f st h⟩

theorem refl_keys_subset_invariant_witness :
    ReflKeysSubStrings stRefl ∧
    ReflKeysSubStrings (run hapiAll [dfTab] (fun _ => true) stRefl) :=
  ⟨by decide,
   (refl_keys_subset_invariant hapiAll dfTab mrefA 3 Insn.other [] (fun _ => true)
     [dfTab] stRefl (by decide)).2.2.2⟩

/-- C10: dump leaves the aggregation state unchanged: on a state built by
`run` from the empty state, the state returned by dump equals the input
state — in particular the reflection pass's `operator[]` lookups never insert
a new entry, because every literal used to form a candidate already has one. -/
theorem dump_frame (hapi : HiddenApi) (resolve : MethodReference → String)
    (dfs : List DexFile) (f : String → Bool) (stats : HiddenApiStats) (dr : Bool) :
    (Dump hapi resolve (run hapi dfs f emptyState) stats dr).2.2 =
      run hapi dfs f emptyState :=
  Dump_state hapi resolve (run hapi dfs f emptyState) stats dr
    (preserve_SortedState.2.2 hapi dfs f emptyState sortedState_empty).2.2.2.2
    (preserve_StringsSub.2.2 hapi dfs f emptyState stringsSub_empty)

end Veridex
